import Mathlib

set_option maxHeartbeats 1000000
set_option linter.unusedVariables false

/-!
Verification of the streaming token-to-audio pipeline of
`tts_engine/inference.py` (Orpheus-FastAPI): the sentence splitter and
its short-unit merge phase, the character-budget batcher of
`generate_speech_from_api`, the windowing policy of `tokens_decoder`,
the producer/consumer completion protocol of `tokens_decoder_sync`,
WAV stitching with crossfade, and the final error reporting of
`generate_speech_from_api`.

Modelling conventions: Python strings are lists of characters, PCM
samples are integers, the real-valued crossfade weights are rationals
(the float endpoints 1.0 and 0.0 of `np.linspace` are exact, and all
conclusions drawn are stable under the sub-integer float rounding of
the interior weights), and the external collaborators
`turn_token_into_id` and `convert_to_audio` (defined in
`speechpipe.py`, outside this tree) are parameters of the decoder.
-/

/-- Python strings, modelled as lists of characters. -/
abbrev PyStr := List Char

/-- Shorthand turning a Lean string literal into the `PyStr` model. -/
def txt (s : String) : PyStr := s.toList

/-- Characters removed by Python `str.strip()` (ASCII whitespace). -/
def isPyWs (c : Char) : Bool :=
  c = ' ' || c = '\t' || c = '\n' || c = '\r' || c = '\x0b' || c = '\x0c'

/-- Python `str.strip()`: drop leading and trailing whitespace. -/
def pyStrip (s : PyStr) : PyStr :=
  ((s.dropWhile isPyWs).reverse.dropWhile isPyWs).reverse

/-- The scanning loop of `split_text_into_sentences`
(`inference.py` lines 711-729).  `parts` and `current` are the two
accumulators of the Python loop; the last list argument is the
remaining input.  Python's end-relative indexing `current_sentence[-k]`
becomes `cur.getD (cur.length - k) _` (the defaults are unreachable
under the length guards). -/
def splitPartsGo (parts : List PyStr) (current : PyStr) : PyStr → List PyStr
  | [] => if pyStrip current ≠ [] then parts ++ [pyStrip current] else parts
  | c :: rest =>
    let cur := current ++ [c]
    if (c = ' ' ∨ c = '\n' ∨ c = '\t') ∧ 1 < cur.length ∧
        (cur.getD (cur.length - 2) 'x' = '.' ∨ cur.getD (cur.length - 2) 'x' = '!' ∨
          cur.getD (cur.length - 2) 'x' = '?') ∧
        3 < cur.length ∧
        ¬(cur.getD (cur.length - 3) 'x' = '.' ∨ cur.getD (cur.length - 3) 'x' = ' ') then
      splitPartsGo (parts ++ [pyStrip cur]) [] rest
    else
      splitPartsGo parts cur rest

/-- The raw sentence parts produced by the scanning phase of
`split_text_into_sentences` before short units are merged. -/
def splitParts (text : PyStr) : List PyStr :=
  splitPartsGo [] [] text

/-- The inner merge loop of `split_text_into_sentences`
(`while i < len(parts) - 1 and len(current) < min_chars`): absorb
following parts into `current` (joined by a space) while it is shorter
than 20 characters and a following part exists.  Returns the finished
unit together with the unconsumed parts. -/
def absorb (current : PyStr) : List PyStr → PyStr × List PyStr
  | [] => (current, [])
  | r :: rs =>
    if current.length < 20 then absorb (current ++ ' ' :: r) rs
    else (current, r :: rs)

/-- Fuelled form of the outer merge loop of
`split_text_into_sentences` (lines 736-745).  Each outer iteration
consumes at least one part, so fuel `parts.length` never runs out; the
fuel only serves to make the recursion structural. -/
def combineShortFuel : Nat → List PyStr → List PyStr
  | _, [] => []
  | 0, _ :: _ => []
  | fuel + 1, p :: ps =>
    let pr := absorb p ps
    pr.1 :: combineShortFuel fuel pr.2

/-- The short-segment merge phase of `split_text_into_sentences`:
units shorter than `min_chars = 20` are greedily merged forward. -/
def combineShort (parts : List PyStr) : List PyStr :=
  combineShortFuel parts.length parts

/-- Model of `split_text_into_sentences` (`inference.py` lines
704-747): scan for sentence boundaries, then merge short units. -/
def split_text_into_sentences (text : PyStr) : List PyStr :=
  combineShort (splitParts text)

/-- Whitespace characters at which the splitter tests for a boundary
(`char in (' ', '\n', '\t')`). -/
def isSentWs (c : Char) : Bool := c = ' ' || c = '\n' || c = '\t'

/-- Sentence-final punctuation (`prev_char in ('.', '!', '?')`). -/
def isSentEnd (c : Char) : Bool := c = '.' || c = '!' || c = '?'

/-- Boundary test of the amended splitting rule, stated on a sliding
window: `c` is the character under scrutiny, `n` the number of
characters of the current unit preceding it, `p1` the character one
back and `p2` the character two back (so `p2` sits three positions
back when the whitespace itself is counted as the first).  A boundary
needs: `c` whitespace, at least three preceding characters, `p1`
sentence-final punctuation, and `p2` neither a period nor a space. -/
def specBoundary (c : Char) (n : Nat) (p1 p2 : Option Char) : Bool :=
  isSentWs c && decide (3 ≤ n) &&
    (match p1 with | some d => isSentEnd d | none => false) &&
    (match p2 with | some g => !(g = '.' || g = ' ') | none => false)

/-- Modelled from the spec (amended): the splitting scan re-stated
with an explicit sliding window instead of end-relative indexing into
the accumulated unit.  To be proved equal to `splitPartsGo`. -/
def splitSpecGo (parts : List PyStr) (acc : PyStr) (p1 p2 : Option Char) : PyStr → List PyStr
  | [] => if pyStrip acc ≠ [] then parts ++ [pyStrip acc] else parts
  | c :: rest =>
    if specBoundary c acc.length p1 p2 then
      splitSpecGo (parts ++ [pyStrip (acc ++ [c])]) [] none none rest
    else
      splitSpecGo parts (acc ++ [c]) (some c) p1 rest

/-- Modelled from the spec (amended): the splitting scan with the
window initialised empty. -/
def splitSpec (text : PyStr) : List PyStr :=
  splitSpecGo [] [] none none text

/-- Boundary test exactly as claim C5 states it, without the length
guard of the code: any whitespace following sentence-final punctuation
is a boundary as soon as the character three positions back exists and
is neither a period nor a space. -/
def claimedBoundary (c : Char) (p1 p2 : Option Char) : Bool :=
  isSentWs c &&
    (match p1 with | some d => isSentEnd d | none => false) &&
    (match p2 with | some g => !(g = '.' || g = ' ') | none => false)

/-- Modelled from the spec: the splitter claim C5 describes, lacking
the `len(current_sentence) > 3` guard of the code. -/
def claimedSplitGo (parts : List PyStr) (acc : PyStr) (p1 p2 : Option Char) : PyStr → List PyStr
  | [] => if pyStrip acc ≠ [] then parts ++ [pyStrip acc] else parts
  | c :: rest =>
    if claimedBoundary c p1 p2 then
      claimedSplitGo (parts ++ [pyStrip (acc ++ [c])]) [] none none rest
    else
      claimedSplitGo parts (acc ++ [c]) (some c) p1 rest

/-- Modelled from the spec: the splitter exactly as claim C5 words it. -/
def claimedSplit (text : PyStr) : List PyStr :=
  claimedSplitGo [] [] none none text

/-- The batch-grouping loop of `generate_speech_from_api`
(`inference.py` lines 787-798): accumulate sentences into
`current` (joined by a single space) and start a new batch when adding
the next sentence would push `len(current) + len(sentence)` over
`maxChars`. -/
def mkBatchesGo (maxChars : Nat) (batches : List PyStr) (current : PyStr) :
    List PyStr → List PyStr
  | [] => if current ≠ [] then batches ++ [current] else batches
  | s :: rest =>
    if maxChars < current.length + s.length ∧ current ≠ [] then
      mkBatchesGo maxChars (batches ++ [current]) s rest
    else
      mkBatchesGo maxChars batches ((if current ≠ [] then current ++ [' '] else current) ++ s) rest

/-- The grouping step applied to a sentence list. -/
def mkBatches (maxChars : Nat) (sentences : List PyStr) : List PyStr :=
  mkBatchesGo maxChars [] [] sentences

/-- Join a group of sentence units with single spaces, exactly the
string the grouping loop accumulates for that group. -/
def joinSp : List PyStr → PyStr
  | [] => []
  | [u] => u
  | u :: us => u ++ ' ' :: joinSp us

/-- The grouping loop re-stated at the level of unit lists: the same
decisions as `mkBatchesGo`, but each batch is kept as the list of
units it consists of instead of the joined string. -/
def mkGroupsGo (maxChars : Nat) (batches : List (List PyStr)) (current : List PyStr) :
    List PyStr → List (List PyStr)
  | [] => if current ≠ [] then batches ++ [current] else batches
  | s :: rest =>
    if maxChars < (joinSp current).length + s.length ∧ current ≠ [] then
      mkGroupsGo maxChars (batches ++ [current]) [s] rest
    else
      mkGroupsGo maxChars batches (current ++ [s]) rest

/-- Unit-level view of the grouping step. -/
def mkGroups (maxChars : Nat) (sentences : List PyStr) : List (List PyStr) :=
  mkGroupsGo maxChars [] [] sentences

/-- The batching dispatch of `generate_speech_from_api` (lines
766-800): short or batching-disabled input runs as a single batch,
longer input is split into sentences and grouped. -/
def speechBatches (prompt : PyStr) (use_batching : Bool) (max_batch_chars : Nat) :
    List PyStr :=
  if ¬use_batching ∨ prompt.length < max_batch_chars then [prompt]
  else mkBatches max_batch_chars (split_text_into_sentences prompt)

/-- Audio chunks (byte strings) handed from the decoder to the queue. -/
abbrev Seg := List Nat

/-- The loop body of `tokens_decoder` (`inference.py` lines 443-499),
parameterised over the external collaborators `turnTok`
(`turn_token_into_id`) and `conv` (`convert_to_audio`).  State:
`buffer` of accepted token ids, `count` of accepted tokens,
`firstDone` the `first_chunk_processed` flag.  Python's tail slices
`buffer[-7:]` and `buffer[-28:]` become `drop (length - w)`. -/
def tokensDecoderGo (turnTok : α → Nat → Option Int) (conv : List Int → Nat → Option β) :
    List Int → Nat → Bool → List α → List β
  | _, _, _, [] => []
  | buffer, count, firstDone, t :: rest =>
    match turnTok t count with
    | none => tokensDecoderGo turnTok conv buffer count firstDone rest
    | some tok =>
      if 0 < tok then
        let buffer1 := buffer ++ [tok]
        let count1 := count + 1
        if firstDone = false then
          if 7 ≤ count1 then
            match conv (buffer1.drop (buffer1.length - 7)) count1 with
            | some a => a :: tokensDecoderGo turnTok conv buffer1 count1 true rest
            | none => tokensDecoderGo turnTok conv buffer1 count1 false rest
          else tokensDecoderGo turnTok conv buffer1 count1 false rest
        else
          if count1 % 7 = 0 ∧ 28 ≤ count1 then
            match conv (buffer1.drop (buffer1.length - 28)) count1 with
            | some a => a :: tokensDecoderGo turnTok conv buffer1 count1 true rest
            | none => tokensDecoderGo turnTok conv buffer1 count1 true rest
          else tokensDecoderGo turnTok conv buffer1 count1 true rest
      else tokensDecoderGo turnTok conv buffer count firstDone rest

/-- Model of `tokens_decoder`: the list of audio segments yielded for
a finite token sequence. -/
def tokens_decoder (turnTok : α → Nat → Option Int) (conv : List Int → Nat → Option β)
    (toks : List α) : List β :=
  tokensDecoderGo turnTok conv [] 0 false toks

/-- Expected number of segments emitted after `k` accepted tokens when
every token is accepted and every `convert_to_audio` call succeeds:
one first chunk as soon as the count reaches 7, then one chunk at
every multiple of 7 that is at least 28. -/
def steadyEmits : Nat → Nat
  | 0 => 0
  | k + 1 =>
    steadyEmits k +
      (if k + 1 = 7 then 1
       else if 7 ≤ k ∧ (k + 1) % 7 = 0 ∧ 28 ≤ k + 1 then 1 else 0)

/-- Result of one run of the producer task `async_producer`
(`inference.py` lines 538-574): whether the started event was set, the
sequence of values put into the bounded queue (in order, `none` being
the sentinel), and whether the done event was set. -/
structure ProducerResult where
  started : Bool
  puts : List (Option Seg)
  doneEventSet : Bool
  deriving DecidableEq

/-- The `async for` body of `async_producer`: the decoder stream is a
list of events, each either a successfully yielded chunk or an
exception raised by the decode function or the token sequence (which
aborts the iteration).  Returns the queue puts made by the `try` body
(only truthy, i.e. non-empty, chunks are put) and whether the body was
cut short by an exception. -/
def producerBodyPuts : List (Except Unit Seg) → List (Option Seg) × Bool
  | [] => ([], false)
  | .error _ :: _ => ([], true)
  | .ok c :: rest =>
    let pr := producerBodyPuts rest
    ((if c ≠ [] then [some c] else []) ++ pr.1, pr.2)

/-- Model of `async_producer`: run the body over the decoder stream
(exceptions are caught by the `except` clause), then the `finally`
clause sets the done event and puts the sentinel. -/
def async_producer (decoderStream : List (Except Unit Seg)) : ProducerResult :=
  let body := producerBodyPuts decoderStream
  { started := true
    puts := body.1 ++ [none]
    doneEventSet := true }

/-- One observation made by the consumer loop of `tokens_decoder_sync`
(lines 600-639) at the bounded queue: either `queue.get` returned an
item within the 0.1s timeout, or it timed out, in which case the
environment flags record whether the 1s completion-check interval had
elapsed, whether `producer_done_event` was set, and whether the queue
was empty at the moment of the check. -/
inductive QueueEvent (σ : Type) where
  | got (item : Option σ)
  | timedOut (checkDue : Bool) (producerDone : Bool) (queueEmpty : Bool)
  deriving DecidableEq

/-- Why the consumer loop stopped. -/
inductive StopReason where
  | sentinel
  | producerFinished
  deriving DecidableEq

/-- The `while True` consumer loop of `tokens_decoder_sync`: dequeued
chunks are appended to `segments`; the loop breaks on the sentinel, or
on a timeout when the completion check is due and finds the producer
done and the queue empty. -/
def consumerRun (segments : List σ) : List (QueueEvent σ) → List σ × Option StopReason
  | [] => (segments, none)
  | .got none :: _ => (segments, some .sentinel)
  | .got (some a) :: rest => consumerRun (segments ++ [a]) rest
  | .timedOut cd pd qe :: rest =>
    if cd ∧ pd ∧ qe then (segments, some .producerFinished)
    else consumerRun segments rest

/-- An event on which the consumer loop is allowed to stop: the
sentinel was dequeued, or a due completion check saw the producer done
and the queue empty. -/
def stopsConsumer (e : QueueEvent σ) : Prop :=
  e = .got none ∨ e = .timedOut true true true

/-- Sample rate of the produced PCM audio (`ORPHEUS_SAMPLE_RATE`
default). -/
def SAMPLE_RATE : Nat := 24000

/-- WAV format parameters compared by `stitch_wav_files`
(`wav.getparams()`). -/
structure WavParams where
  nchannels : Nat
  sampwidth : Nat
  framerate : Nat
  deriving DecidableEq

/-- A WAV file as the stitcher sees it: format parameters and the
decoded 16-bit PCM samples. -/
structure WavFile where
  params : WavParams
  samples : List Int
  deriving DecidableEq

/-- Crossfade length in samples:
`crossfade_samples = int(SAMPLE_RATE * crossfade_ms / 1000)`. -/
def crossfadeSamplesOf (crossfade_ms : Nat) : Nat :=
  SAMPLE_RATE * crossfade_ms / 1000

/-- Python `xs[:-c]`: everything except the final `c` elements,
empty when `c = 0` (since `xs[:0]` is empty). -/
def pyTakeAllBut (xs : List α) (c : Nat) : List α :=
  if c = 0 then [] else xs.take (xs.length - c)

/-- Python `xs[-c:]`: the final `c` elements; the whole list when
`c = 0` (since `xs[-0:]` is `xs[0:]`). -/
def pyLastSlice (xs : List α) (c : Nat) : List α :=
  if c = 0 then xs else xs.drop (xs.length - c)

/-- Weight `fade_out[k]` of `np.linspace(1.0, 0.0, c)`, modelled
exactly as a rational: `1 - k/(c-1)`, and `1` for a single point. -/
def fadeOutW (c k : Nat) : ℚ :=
  if c = 1 then 1 else 1 - (k : ℚ) / ((c : ℚ) - 1)

/-- Weight `fade_in[k]` of `np.linspace(0.0, 1.0, c)`. -/
def fadeInW (c k : Nat) : ℚ :=
  if c = 1 then 0 else (k : ℚ) / ((c : ℚ) - 1)

/-- Truncation toward zero, the float-to-integer conversion of
`astype`. -/
def ratTrunc (q : ℚ) : Int :=
  if 0 ≤ q then ⌊q⌋ else ⌈q⌉

/-- Wrap-around into the signed 16-bit range, the overflow behaviour
of `astype(np.int16)`. -/
def int16wrap (z : Int) : Int :=
  (z + 32768) % 65536 - 32768

/-- The blended boundary region:
`(final_audio[-c:] * fade_out + audio[:c] * fade_in).astype(np.int16)`
with both slices of length `c`. -/
def blendRegion (tailA leadB : List Int) (c : Nat) : List Int :=
  (List.range c).map fun k =>
    int16wrap (ratTrunc ((tailA.getD k 0 : ℚ) * fadeOutW c k +
      (leadB.getD k 0 : ℚ) * fadeInW c k))

/-- One boundary of the stitch loop (`inference.py` lines 919-936):
crossfade when both sides have at least `c` samples, otherwise plain
concatenation. -/
def stitchStep (c : Nat) (acc next : List Int) : List Int :=
  if c ≤ acc.length ∧ c ≤ next.length then
    pyTakeAllBut acc c ++ blendRegion (pyLastSlice acc c) (next.take c) c ++ next.drop c
  else acc ++ next

/-- Model of `stitch_wav_files` (lines 883-954): no inputs write
nothing; a single input is copied through unchanged without being
decoded; otherwise the samples are merged boundary by boundary with a
crossfade and written with the first file's parameters. -/
def stitch_wav_files (inputs : List WavFile) (crossfade_ms : Nat) : Option WavFile :=
  match inputs with
  | [] => none
  | [f] => some f
  | f :: rest =>
    let c := crossfadeSamplesOf crossfade_ms
    some { params := f.params
           samples := rest.foldl (fun acc g => stitchStep c acc g.samples) f.samples }

/-- The distinct error messages returned by the tail of
`generate_speech_from_api` (lines 836-872). -/
inductive GenError where
  | sinkEmptyNoSegments
  | noSegments
  | sinkMissing
  | sinkEmptyAfterWrite
  deriving DecidableEq

/-- The result-reporting tail of `generate_speech_from_api` (lines
836-872), as a function of what the generation phase produced: the
collected audio segments, whether an output file was requested,
whether it exists at the end of the run, and its size in bytes.
Returns the `(success, error_message)` pair. -/
def finishGeneration (segments : List Seg) (output_file fileExists : Bool)
    (fileSize : Nat) : Bool × Option GenError :=
  if segments = [] then
    if output_file ∧ fileExists ∧ fileSize ≤ 44 then (false, some .sinkEmptyNoSegments)
    else (false, some .noSegments)
  else if output_file then
    if ¬fileExists then (false, some .sinkMissing)
    else if fileSize ≤ 44 then (false, some .sinkEmptyAfterWrite)
    else (true, none)
  else (true, none)

/-- Hardcoded repetition penalty (`inference.py` line 134). -/
def REPETITION_PENALTY : ℚ := 11 / 10

/-- Voices accepted by `format_prompt`. -/
def AVAILABLE_VOICES : List PyStr :=
  [txt "tara", txt "leah", txt "jess", txt "leo", txt "dan", txt "mia", txt "zac",
    txt "zoe", txt "pierre", txt "amelie", txt "marie", txt "jana", txt "thomas",
    txt "max", txt "유나", txt "준서", txt "ऋतिका", txt "长乐", txt "白芷",
    txt "javi", txt "sergio", txt "maria", txt "pietro", txt "giulia", txt "carlo"]

/-- Default voice. -/
def DEFAULT_VOICE : PyStr := txt "tara"

/-- Model of `format_prompt` (lines 242-256): voice fallback, voice
prefix, and the special start and end markers. -/
def format_prompt (prompt voice : PyStr) : PyStr :=
  let v := if voice ∈ AVAILABLE_VOICES then voice else DEFAULT_VOICE
  txt "<|audio|>" ++ v ++ txt ": " ++ prompt ++ txt "<|eot_id|>"

/-- The request payload built by `generate_tokens_from_api`
(lines 273-281). -/
structure LlmPayload where
  prompt : PyStr
  temperature : ℚ
  top_p : ℚ
  max_tokens : Nat
  repetition_penalty : ℚ
  stop : List PyStr
  stream : Bool
  deriving DecidableEq

/-- Payload construction of `generate_tokens_from_api`: the
`repetition_penalty` field carries whatever value that function was
called with. -/
def generate_tokens_payload (prompt voice : PyStr) (temperature top_p : ℚ)
    (max_tokens : Nat) (repetition_penalty : ℚ) : LlmPayload :=
  { prompt := format_prompt prompt voice
    temperature := temperature
    top_p := top_p
    max_tokens := max_tokens
    repetition_penalty := repetition_penalty
    stop := [txt "<|eot_id|>"]
    stream := false }

/-- The token-generation requests issued by one call of
`generate_speech_from_api` (lines 766-822): one per batch, and in both
the non-batched and the batched call site the hardcoded
`REPETITION_PENALTY` is passed, never the caller's
`repetition_penalty` argument (which is accepted and ignored). -/
def speechRequests (prompt voice : PyStr) (temperature top_p : ℚ) (max_tokens : Nat)
    (repetition_penalty : Option ℚ) (use_batching : Bool) (max_batch_chars : Nat) :
    List LlmPayload :=
  (speechBatches prompt use_batching max_batch_chars).map fun b =>
    generate_tokens_payload b voice temperature top_p max_tokens REPETITION_PENALTY

/-! ## Helper lemmas -/

/-- Every value the producer body puts into the queue is a real chunk,
never the sentinel. -/
theorem producerBodyPuts_all_some :
    ∀ (stream : List (Except Unit Seg)), ∀ p ∈ (producerBodyPuts stream).1, p ≠ none := by
  intro stream
  induction stream with
  | nil => intro p hp; simp [producerBodyPuts] at hp
  | cons e rest ih =>
    intro p hp
    match e with
    | .error _ => simp [producerBodyPuts] at hp
    | .ok c =>
      simp only [producerBodyPuts, List.mem_append] at hp
      rcases hp with hp | hp
      · by_cases hc : c ≠ [] <;> simp [hc] at hp
        simp [hp]
      · exact ih p hp

/-! ## Claim theorems -/

/-- C2: whatever the decoder stream does — yields chunks, ends, or is
cut short by an exception from the decode function or the token
sequence — the producer run of `tokens_decoder_sync` sets the
producer-done event and puts the terminal sentinel `none` into the
queue as the very last item, and never earlier. -/
theorem producer_always_signals_and_sentinels (stream : List (Except Unit Seg)) :
    (async_producer stream).doneEventSet = true ∧
    (async_producer stream).puts.getLast? = some none ∧
    ∀ p ∈ (async_producer stream).puts.dropLast, p ≠ none := by
  refine ⟨rfl, ?_, ?_⟩
  · show ((producerBodyPuts stream).1 ++ [none]).getLast? = some none
    exact List.getLast?_concat _
  · intro p hp
    have h : ((producerBodyPuts stream).1 ++ [none]).dropLast = (producerBodyPuts stream).1 :=
      List.dropLast_concat ..
    rw [show (async_producer stream).puts = (producerBodyPuts stream).1 ++ [none] from rfl,
      h] at hp
    exact producerBodyPuts_all_some stream p hp

/-- C3: the consumer loop of `tokens_decoder_sync` stops exactly when
it meets an event it is allowed to stop on — the sentinel is dequeued,
or a due completion check finds the producer done and the queue empty.
In particular a transient empty queue (a timeout whose check is not
due, or whose check sees the producer still running or the queue
non-empty) never terminates the loop. -/
theorem consumer_stop_conditions (segments : List Seg) (events : List (QueueEvent Seg)) :
    (consumerRun segments events).2 ≠ none ↔ ∃ e ∈ events, stopsConsumer e := by
  induction events generalizing segments with
  | nil => simp [consumerRun]
  | cons e rest ih =>
    match e with
    | .got none =>
      simp only [consumerRun, List.mem_cons]
      constructor
      · intro _
        exact ⟨QueueEvent.got none, Or.inl rfl, Or.inl rfl⟩
      · intro _
        simp
    | .got (some a) =>
      simp only [consumerRun, List.mem_cons]
      rw [ih]
      constructor
      · rintro ⟨x, hx, hs⟩; exact ⟨x, Or.inr hx, hs⟩
      · rintro ⟨x, hx | hx, hs⟩
        · rw [hx] at hs; rcases hs with h | h <;> simp [stopsConsumer] at h
        · exact ⟨x, hx, hs⟩
    | .timedOut cd pd qe =>
      by_cases hdone : cd ∧ pd ∧ qe
      · simp only [consumerRun, if_pos hdone, List.mem_cons]
        constructor
        · intro _
          obtain ⟨h1, h2, h3⟩ := hdone
          subst h1; subst h2; subst h3
          exact ⟨QueueEvent.timedOut true true true, Or.inl rfl, Or.inr rfl⟩
        · intro _
          simp
      · simp only [consumerRun, if_neg hdone, List.mem_cons]
        rw [ih]
        constructor
        · rintro ⟨x, hx, hs⟩; exact ⟨x, Or.inr hx, hs⟩
        · rintro ⟨x, hx | hx, hs⟩
          · rw [hx] at hs
            rcases hs with h | h
            · exact absurd h (by simp [stopsConsumer])
            · cases h; exact absurd ⟨rfl, rfl, rfl⟩ hdone
          · exact ⟨x, hx, hs⟩

/-- C6: stitching a single file is a byte-for-byte pass-through copy:
the output equals the input for every input file and every crossfade
duration, with no decoding and no crossfade involved. -/
theorem stitch_single_passthrough (f : WavFile) (crossfade_ms : Nat) :
    stitch_wav_files [f] crossfade_ms = some f := rfl

/-- C8: when an output file was requested and at the end of the run it
exists but holds at most the 44 bytes of a bare WAV header,
`generate_speech_from_api` reports failure with a non-null error
message (rather than success), whether or not any segments were
collected. -/
theorem empty_sink_reported (segments : List Seg) (output_file fileExists : Bool)
    (fileSize : Nat) (h1 : output_file = true) (h2 : fileExists = true)
    (h3 : fileSize ≤ 44) :
    (finishGeneration segments output_file fileExists fileSize).1 = false ∧
    (finishGeneration segments output_file fileExists fileSize).2 ≠ none := by
  subst h1; subst h2
  by_cases hs : segments = [] <;> simp [finishGeneration, hs, h3]

/-- Witness for C8 at a concrete run: no segments, file present with
exactly 44 bytes. -/
theorem empty_sink_reported_witness :
    (44 ≤ 44) ∧
    ((finishGeneration [] true true 44).1 = false ∧
      (finishGeneration [] true true 44).2 ≠ none) :=
  ⟨by decide, empty_sink_reported [] true true 44 rfl rfl (by decide)⟩

/-- C9: every token-generation request issued by
`generate_speech_from_api` carries repetition penalty `1.1`, whatever
value the caller (including the CLI flag) passed for the
`repetition_penalty` argument. -/
theorem repetition_penalty_hardcoded (prompt voice : PyStr) (temperature top_p : ℚ)
    (max_tokens : Nat) (rp : Option ℚ) (use_batching : Bool) (max_batch_chars : Nat)
    (r : LlmPayload)
    (hr : r ∈ speechRequests prompt voice temperature top_p max_tokens rp
      use_batching max_batch_chars) :
    r.repetition_penalty = 11 / 10 := by
  simp only [speechRequests, List.mem_map] at hr
  obtain ⟨b, -, rfl⟩ := hr
  rfl

/-- Witness for C9: a concrete call that asks for repetition penalty 5
still issues its single request with penalty 1.1. -/
theorem repetition_penalty_hardcoded_witness :
    (generate_tokens_payload (txt "hi") (txt "tara") (1/10) (85/100) 8192
        REPETITION_PENALTY ∈
      speechRequests (txt "hi") (txt "tara") (1/10) (85/100) 8192 (some 5) true 2500) ∧
    (generate_tokens_payload (txt "hi") (txt "tara") (1/10) (85/100) 8192
        REPETITION_PENALTY).repetition_penalty = 11 / 10 := by
  have hm : generate_tokens_payload (txt "hi") (txt "tara") (1/10) (85/100) 8192
      REPETITION_PENALTY ∈
      speechRequests (txt "hi") (txt "tara") (1/10) (85/100) 8192 (some 5) true 2500 := by
    show _ ∈ List.map _ (speechBatches (txt "hi") true 2500)
    have hb : speechBatches (txt "hi") true 2500 = [txt "hi"] := by
      simp [speechBatches, txt]
    rw [hb]
    exact List.mem_singleton.mpr rfl
  exact ⟨hm, repetition_penalty_hardcoded (txt "hi") (txt "tara") (1/10) (85/100) 8192
    (some 5) true 2500 _ hm⟩

/-- The merge loop's exit condition: the unconsumed remainder is only
non-empty when the finished unit has reached 20 characters, and the
remainder never grows. -/
theorem absorb_spec (ps : List PyStr) (cur : PyStr) :
    (absorb cur ps).2.length ≤ ps.length ∧
    ((absorb cur ps).2 ≠ [] → 20 ≤ (absorb cur ps).1.length) := by
  induction ps generalizing cur with
  | nil => exact ⟨Nat.le_refl _, fun h => absurd rfl h⟩
  | cons r rs ih =>
    by_cases hc : cur.length < 20
    · have := ih (cur ++ ' ' :: r)
      rw [absorb, if_pos hc]
      exact ⟨Nat.le_trans this.1 (Nat.le_succ _), this.2⟩
    · rw [absorb, if_neg hc]
      exact ⟨Nat.le_refl _, fun _ => Nat.le_of_not_lt hc⟩

/-- In the merged unit list, every unit except possibly the last has
at least 20 characters. -/
theorem combineShortFuel_dropLast_long :
    ∀ (fuel : Nat) (parts : List PyStr), parts.length ≤ fuel →
      ∀ u ∈ (combineShortFuel fuel parts).dropLast, 20 ≤ u.length := by
  intro fuel
  induction fuel with
  | zero =>
    intro parts hp u hu
    rw [List.length_eq_zero.mp (Nat.le_zero.mp hp)] at hu
    simp [combineShortFuel] at hu
  | succ fuel ih =>
    intro parts hp u hu
    match parts with
    | [] => simp [combineShortFuel] at hu
    | p :: ps =>
      rw [combineShortFuel] at hu
      rcases hL : combineShortFuel fuel (absorb p ps).2 with _ | ⟨b, L⟩
      · rw [hL] at hu
        simp at hu
      · rw [hL, List.dropLast_cons_of_ne_nil (by simp)] at hu
        rcases List.mem_cons.mp hu with hu | hu
        · subst hu
          refine (absorb_spec ps p).2 ?_
          intro hnil
          rw [hnil] at hL
          simp [combineShortFuel] at hL
        · have hlen : (absorb p ps).2.length ≤ fuel :=
            Nat.le_trans (absorb_spec ps p).1 (Nat.le_of_succ_le_succ hp)
          exact ih (absorb p ps).2 hlen u (by rw [hL]; exact hu)

/-- C10: every unit returned by `split_text_into_sentences` except
possibly the last one is at least `min_chars = 20` characters long; a
short trailing unit remains as its own final unit, there being no
following unit for the forward merge to absorb it into. -/
theorem split_units_min_chars (text : PyStr) (u : PyStr)
    (hu : u ∈ (split_text_into_sentences text).dropLast) : 20 ≤ u.length :=
  combineShortFuel_dropLast_long (splitParts text).length (splitParts text)
    (Nat.le_refl _) u hu

/-- Witness for C10 on a concrete two-sentence text. -/
theorem split_units_min_chars_witness :
    (txt "This is the first sentence here." ∈
      (split_text_into_sentences
        (txt "This is the first sentence here. And this is the second sentence.")).dropLast) ∧
    20 ≤ (txt "This is the first sentence here.").length :=
  ⟨by decide,
    split_units_min_chars
      (txt "This is the first sentence here. And this is the second sentence.")
      (txt "This is the first sentence here.") (by decide)⟩

/-- Appending one more unit to a space-joined group. -/
theorem joinSp_concat (us : List PyStr) (s : PyStr) :
    joinSp (us ++ [s]) = (if us = [] then [] else joinSp us ++ [' ']) ++ s := by
  induction us with
  | nil => simp [joinSp]
  | cons u vs ih =>
    match vs with
    | [] => simp [joinSp]
    | v :: ws =>
      have h1 : joinSp ((u :: v :: ws) ++ [s]) = u ++ ' ' :: joinSp ((v :: ws) ++ [s]) := rfl
      rw [h1, ih]
      simp [joinSp, List.append_assoc]

/-- A space-join of non-empty units is empty exactly when the group
is. -/
theorem joinSp_eq_nil_iff (us : List PyStr) (h : ∀ u ∈ us, u ≠ []) :
    joinSp us = [] ↔ us = [] := by
  match us with
  | [] => simp [joinSp]
  | [u] =>
    simp only [joinSp]
    have := h u (List.mem_singleton.mpr rfl)
    simp [this]
  | u :: v :: ws =>
    simp only [joinSp]
    constructor
    · intro hc
      exact absurd hc (by simp [h u (List.mem_cons_self u _)])
    · intro hc
      exact absurd hc (by simp)

/-- The string-level grouping loop computes the space-joins of the
unit-level grouping loop. -/
theorem mkBatchesGo_eq_map_joinSp (maxChars : Nat) :
    ∀ (l : List PyStr) (batches : List (List PyStr)) (curU : List PyStr),
      (∀ u ∈ curU, u ≠ []) → (∀ u ∈ l, u ≠ []) →
      mkBatchesGo maxChars (batches.map joinSp) (joinSp curU) l =
        (mkGroupsGo maxChars batches curU l).map joinSp := by
  intro l
  induction l with
  | nil =>
    intro batches curU hcur hl
    by_cases hc : curU = []
    · subst hc
      simp [mkBatchesGo, mkGroupsGo, joinSp]
    · have hj : joinSp curU ≠ [] := fun h => hc ((joinSp_eq_nil_iff curU hcur).mp h)
      simp [mkBatchesGo, mkGroupsGo, hc, hj]
  | cons s rest ih =>
    intro batches curU hcur hl
    have hs : s ≠ [] := hl s (List.mem_cons_self s _)
    have hrest : ∀ u ∈ rest, u ≠ [] := fun u hu => hl u (List.mem_cons_of_mem s hu)
    by_cases hc : curU = []
    · subst hc
      have hj0 : ¬(joinSp ([] : List PyStr) ≠ []) := by simp [joinSp]
      have hcond1 : ¬(maxChars < (joinSp ([] : List PyStr)).length + s.length ∧
          joinSp ([] : List PyStr) ≠ []) := fun hand => hj0 hand.2
      have hcond2 : ¬(maxChars < (joinSp ([] : List PyStr)).length + s.length ∧
          ([] : List PyStr) ≠ []) := fun hand => hand.2 rfl
      rw [mkBatchesGo, mkGroupsGo, if_neg hcond1, if_neg hcond2, if_neg hj0]
      have hstep : joinSp ([] : List PyStr) ++ s = joinSp [s] := rfl
      rw [hstep, List.nil_append]
      exact ih batches [s] (by simpa using hs) hrest
    · have hj : joinSp curU ≠ [] := fun h => hc ((joinSp_eq_nil_iff curU hcur).mp h)
      by_cases hover : maxChars < (joinSp curU).length + s.length
      · rw [mkBatchesGo, mkGroupsGo, if_pos ⟨hover, hj⟩, if_pos ⟨hover, hc⟩]
        have h1 : (batches.map joinSp) ++ [joinSp curU] = (batches ++ [curU]).map joinSp := by
          simp
        have h2 : s = joinSp [s] := rfl
        rw [h1, h2]
        exact ih (batches ++ [curU]) [s] (by simpa using hs) hrest
      · have hcond1 : ¬(maxChars < (joinSp curU).length + s.length ∧
            joinSp curU ≠ []) := fun hand => hover hand.1
        have hcond2 : ¬(maxChars < (joinSp curU).length + s.length ∧
            curU ≠ []) := fun hand => hover hand.1
        rw [mkBatchesGo, mkGroupsGo, if_neg hcond1, if_neg hcond2, if_pos hj]
        have hstep : (joinSp curU ++ [' ']) ++ s = joinSp (curU ++ [s]) := by
          rw [joinSp_concat, if_neg hc]
        rw [hstep]
        refine ih batches (curU ++ [s]) ?_ hrest
        intro u hu
        rcases List.mem_append.mp hu with hu | hu
        · exact hcur u hu
        · rw [List.mem_singleton.mp hu]; exact hs

/-- The unit-level grouping loop neither drops, reorders, nor splits
units: its groups flatten back to the input. -/
theorem mkGroupsGo_join (maxChars : Nat) :
    ∀ (l : List PyStr) (batches : List (List PyStr)) (curU : List PyStr),
      (mkGroupsGo maxChars batches curU l).flatten = batches.flatten ++ curU ++ l := by
  intro l
  induction l with
  | nil =>
    intro batches curU
    by_cases hc : curU = []
    · subst hc; simp [mkGroupsGo]
    · simp [mkGroupsGo, hc]
  | cons s rest ih =>
    intro batches curU
    by_cases hcond : maxChars < (joinSp curU).length + s.length ∧ curU ≠ []
    · rw [mkGroupsGo, if_pos hcond, ih]
      simp
    · rw [mkGroupsGo, if_neg hcond, ih]
      simp

/-- Every group produced by the grouping loop is non-empty, and every
group of two or more units joins to at most `maxChars + 1` characters
(the budget test ignores the single joining space of the final merge). -/
theorem mkGroupsGo_bounds (maxChars : Nat) :
    ∀ (l : List PyStr) (batches : List (List PyStr)) (curU : List PyStr),
      (∀ g ∈ batches, g ≠ [] ∧ (2 ≤ g.length → (joinSp g).length ≤ maxChars + 1)) →
      (curU ≠ [] → 2 ≤ curU.length → (joinSp curU).length ≤ maxChars + 1) →
      ∀ g ∈ mkGroupsGo maxChars batches curU l,
        g ≠ [] ∧ (2 ≤ g.length → (joinSp g).length ≤ maxChars + 1) := by
  intro l
  induction l with
  | nil =>
    intro batches curU hb hcur g hg
    by_cases hc : curU = []
    · subst hc
      rw [mkGroupsGo] at hg
      simp only [ne_eq, not_true_eq_false, if_false] at hg
      exact hb g hg
    · rw [mkGroupsGo, if_pos hc] at hg
      rcases List.mem_append.mp hg with hg | hg
      · exact hb g hg
      · rw [List.mem_singleton.mp hg]
        exact ⟨hc, hcur hc⟩
  | cons s rest ih =>
    intro batches curU hb hcur g hg
    by_cases hcond : maxChars < (joinSp curU).length + s.length ∧ curU ≠ []
    · rw [mkGroupsGo, if_pos hcond] at hg
      refine ih (batches ++ [curU]) [s] ?_ ?_ g hg
      · intro g' hg'
        rcases List.mem_append.mp hg' with hg' | hg'
        · exact hb g' hg'
        · rw [List.mem_singleton.mp hg']
          exact ⟨hcond.2, hcur hcond.2⟩
      · intro _ h2
        simp at h2
    · rw [mkGroupsGo, if_neg hcond] at hg
      refine ih batches (curU ++ [s]) hb ?_ g hg
      intro hne h2
      by_cases hc : curU = []
      · subst hc
        simp at h2
      · have hfit : (joinSp curU).length + s.length ≤ maxChars := by
          rcases Nat.lt_or_ge maxChars ((joinSp curU).length + s.length) with h | h
          · exact absurd ⟨h, hc⟩ hcond
          · exact h
        rw [joinSp_concat, if_neg hc]
        simp only [List.length_append, List.length_cons, List.length_nil]
        omega

/-- C4 (amended): with all sentence units non-empty, the grouping step
of `generate_speech_from_api` produces exactly the space-joins of an
ordered partition of the unit sequence — batches preserve input order
and a batch boundary never splits a unit — every batch is non-empty,
and every batch made of two or more units has at most `maxChars + 1`
characters: one more than the budget, because the test
`len(current_batch) + len(sentence) > max_batch_chars` does not count
the joining space added on a merge.  A batch holding a single
oversized unit is unbounded and unsplit. -/
theorem batch_grouping_amended (maxChars : Nat) (sentences : List PyStr)
    (hne : ∀ u ∈ sentences, u ≠ []) :
    mkBatches maxChars sentences = (mkGroups maxChars sentences).map joinSp ∧
    (mkGroups maxChars sentences).flatten = sentences ∧
    ∀ g ∈ mkGroups maxChars sentences, g ≠ [] ∧
      (2 ≤ g.length → (joinSp g).length ≤ maxChars + 1) := by
  refine ⟨?_, ?_, ?_⟩
  · have h := mkBatchesGo_eq_map_joinSp maxChars sentences [] [] (by simp) hne
    simpa [mkBatches, mkGroups, joinSp] using h
  · have h := mkGroupsGo_join maxChars sentences [] []
    simpa [mkGroups] using h
  · intro g hg
    exact mkGroupsGo_bounds maxChars sentences [] [] (by simp)
      (fun h => absurd rfl h) g hg

/-- Witness for C4 (amended) at the concrete two-unit sentence list of
the counterexample text, with budget 25. -/
theorem batch_grouping_amended_witness :
    (∀ u ∈ [txt "abcdefghijklmnopqrs.", txt "stop."], u ≠ []) ∧
    (mkBatches 25 [txt "abcdefghijklmnopqrs.", txt "stop."] =
        (mkGroups 25 [txt "abcdefghijklmnopqrs.", txt "stop."]).map joinSp ∧
      (mkGroups 25 [txt "abcdefghijklmnopqrs.", txt "stop."]).flatten =
        [txt "abcdefghijklmnopqrs.", txt "stop."] ∧
      ∀ g ∈ mkGroups 25 [txt "abcdefghijklmnopqrs.", txt "stop."], g ≠ [] ∧
        (2 ≤ g.length → (joinSp g).length ≤ 25 + 1)) :=
  ⟨by decide,
    batch_grouping_amended 25 [txt "abcdefghijklmnopqrs.", txt "stop."] (by decide)⟩

/-- Counterexample to C4 as stated: the prompt below has 26
characters, so with `max_batch_chars = 25` batching is in effect; the
grouping step produces a single batch of 26 > 25 characters which is
not a single sentence unit (it is the space-join of the text's two
units), contradicting the claim that every batch is either one unit or
within the budget. -/
theorem batch_budget_counterexample :
    speechBatches (txt "abcdefghijklmnopqrs. stop.") true 25 =
      [txt "abcdefghijklmnopqrs. stop."] ∧
    (txt "abcdefghijklmnopqrs. stop.").length = 26 ∧
    ¬(txt "abcdefghijklmnopqrs. stop." ∈
        split_text_into_sentences (txt "abcdefghijklmnopqrs. stop.") ∨
      (txt "abcdefghijklmnopqrs. stop.").length ≤ 25) := by
  decide

/-- The implementation's boundary test (end-relative indexing into the
accumulated unit, with its length guards) coincides with the amended
window-based boundary rule. -/
theorem boundary_cond_iff (acc : PyStr) (c : Char) :
    ((c = ' ' ∨ c = '\n' ∨ c = '\t') ∧ 1 < (acc ++ [c]).length ∧
      ((acc ++ [c]).getD ((acc ++ [c]).length - 2) 'x' = '.' ∨
        (acc ++ [c]).getD ((acc ++ [c]).length - 2) 'x' = '!' ∨
        (acc ++ [c]).getD ((acc ++ [c]).length - 2) 'x' = '?') ∧
      3 < (acc ++ [c]).length ∧
      ¬((acc ++ [c]).getD ((acc ++ [c]).length - 3) 'x' = '.' ∨
        (acc ++ [c]).getD ((acc ++ [c]).length - 3) 'x' = ' '))
    ↔ specBoundary c acc.length acc.getLast? acc.dropLast.getLast? = true := by
  rcases hrev : acc.reverse with _ | ⟨d, tl⟩
  · have hacc : acc = [] := by
      have h := congrArg List.reverse hrev
      simpa using h
    subst hacc
    simp [specBoundary]
  · rcases tl with _ | ⟨g, t⟩
    · have hacc : acc = [d] := by
        have h := congrArg List.reverse hrev
        simpa using h
      subst hacc
      simp [specBoundary]
    · have hacc : acc = t.reverse ++ [g, d] := by
        have h := congrArg List.reverse hrev
        simpa using h
      subst hacc
      have eassoc : (t.reverse ++ [g, d]) ++ [c] = t.reverse ++ [g, d, c] := by simp
      have elen : (t.reverse ++ [g, d, c]).length = t.reverse.length + 3 := by simp
      have elen2 : (t.reverse ++ [g, d]).length = t.reverse.length + 2 := by simp
      have eL : (t.reverse ++ [g, d]).getLast? = some d := by
        rw [show t.reverse ++ [g, d] = (t.reverse ++ [g]) ++ [d] from by simp]
        exact List.getLast?_concat _
      have eD : (t.reverse ++ [g, d]).dropLast.getLast? = some g := by
        rw [show t.reverse ++ [g, d] = (t.reverse ++ [g]) ++ [d] from by simp,
          List.dropLast_concat]
        exact List.getLast?_concat _
      have e2 : (t.reverse ++ [g, d, c]).getD (t.reverse.length + 3 - 2) 'x' = d := by
        rw [show t.reverse.length + 3 - 2 = t.reverse.length + 1 from by omega,
          List.getD_append_right _ _ _ _ (by omega),
          show t.reverse.length + 1 - t.reverse.length = 1 from by omega]
        rfl
      have e3 : (t.reverse ++ [g, d, c]).getD (t.reverse.length + 3 - 3) 'x' = g := by
        rw [show t.reverse.length + 3 - 3 = t.reverse.length from by omega,
          List.getD_append_right _ _ _ _ (by omega),
          show t.reverse.length - t.reverse.length = 0 from by omega]
        rfl
      rw [eassoc, elen, elen2, eL, eD, e2, e3]
      simp only [specBoundary, isSentWs, isSentEnd, Bool.and_eq_true, Bool.or_eq_true,
        decide_eq_true_eq, Bool.not_eq_true', Bool.or_eq_false_iff, decide_eq_false_iff_not]
      constructor
      · rintro ⟨hw, -, hp, hlen3, hg⟩
        have h32 : 3 ≤ t.reverse.length + 2 := by omega
        tauto
      · rintro ⟨⟨⟨hw, hlen3⟩, hp⟩, hg1, hg2⟩
        have h1 : (1 : Nat) < t.reverse.length + 3 := by omega
        have h3 : (3 : Nat) < t.reverse.length + 3 := by omega
        tauto

/-- The scanning loop equals its window-based restatement, for every
accumulator state. -/
theorem splitPartsGo_eq_splitSpecGo :
    ∀ (l : PyStr) (parts : List PyStr) (acc : PyStr),
      splitPartsGo parts acc l = splitSpecGo parts acc acc.getLast? acc.dropLast.getLast? l := by
  intro l
  induction l with
  | nil => intro parts acc; rfl
  | cons c rest ih =>
    intro parts acc
    simp only [splitPartsGo, splitSpecGo]
    by_cases h : specBoundary c acc.length acc.getLast? acc.dropLast.getLast? = true
    · rw [if_pos ((boundary_cond_iff acc c).mpr h), if_pos h]
      exact ih (parts ++ [pyStrip (acc ++ [c])]) []
    · rw [if_neg (fun hc => h ((boundary_cond_iff acc c).mp hc)), if_neg h]
      rw [ih parts (acc ++ [c]), List.getLast?_concat, List.dropLast_concat]

/-- C5 (amended): the splitter hypothesizes a boundary exactly at a
whitespace character immediately following one of `.`, `!`, `?`, and
only when at least three characters of the current unit precede that
whitespace and the character three positions back from it (the one
just before the punctuation) is neither `.` nor a space; at every
boundary the accumulated text is emitted (stripped) as one unit, and
remaining text not ending at a boundary is emitted as a final trailing
unit.  Stated as: the code's scan equals the window-based splitter
built from this rule. -/
theorem split_boundary_characterisation (text : PyStr) :
    splitParts text = splitSpec text :=
  splitPartsGo_eq_splitSpecGo text [] []

/-- Counterexample to C5 as stated: on `"a. b"` the claimed rule
(without the code's `len(current_sentence) > 3` guard) splits after
`"a."` — the character three positions back from the whitespace exists
and is `'a'` — but the code does not split, because only two
characters precede the whitespace. -/
theorem split_boundary_counterexample :
    claimedSplit (txt "a. b") = [txt "a.", txt "b"] ∧
    splitParts (txt "a. b") = [txt "a. b"] ∧
    claimedSplit (txt "a. b") ≠ splitParts (txt "a. b") := by decide

/-- Closed form of `steadyEmits` past the steady-state threshold. -/
theorem steadyEmits_eq (N : Nat) (hN : 28 ≤ N) : steadyEmits N = N / 7 - 2 := by
  induction N, hN using Nat.le_induction with
  | base => decide
  | succ n hn ih =>
    have h4 : 4 ≤ n / 7 := by
      calc 4 = 28 / 7 := rfl
      _ ≤ n / 7 := Nat.div_le_div_right hn
    have hdiv : (n + 1) / 7 = n / 7 + if 7 ∣ n + 1 then 1 else 0 := Nat.succ_div n 7
    by_cases hmod : (n + 1) % 7 = 0
    · have hdvd : 7 ∣ (n + 1) := Nat.dvd_of_mod_eq_zero hmod
      rw [steadyEmits, if_neg (by omega), if_pos ⟨by omega, hmod, by omega⟩, ih, hdiv,
        if_pos hdvd]
      omega
    · have hdvd : ¬7 ∣ (n + 1) := fun h => hmod (Nat.mod_eq_zero_of_dvd h)
      rw [steadyEmits, if_neg (by omega), if_neg (fun hand => hmod hand.2.1), ih, hdiv,
        if_neg hdvd]
      omega

/-- With every token accepted and every codec call succeeding, the
decoder loop emits according to `steadyEmits`, from any starting
count. -/
theorem tokensDecoderGo_const_count {α β : Type} (seg : β) (turnTok : α → Nat → Option Int)
    (hacc : ∀ t c, ∃ v, turnTok t c = some v ∧ 0 < v) :
    ∀ (toks : List α) (buffer : List Int) (count : Nat),
      (tokensDecoderGo turnTok (fun _ _ => some seg) buffer count
          (decide (7 ≤ count)) toks).length + steadyEmits count =
        steadyEmits (count + toks.length) := by
  intro toks
  induction toks with
  | nil => intro buffer count; simp [tokensDecoderGo]
  | cons t rest ih =>
    intro buffer count
    obtain ⟨v, hv, hvpos⟩ := hacc t count
    simp only [tokensDecoderGo, hv]
    rw [if_pos hvpos]
    by_cases h7 : 7 ≤ count
    · have hd : decide (7 ≤ count) = true := decide_eq_true h7
      rw [hd, if_neg (by simp)]
      have hd2 : decide (7 ≤ count + 1) = true := decide_eq_true (by omega)
      have hrec := ih (buffer ++ [v]) (count + 1)
      rw [hd2] at hrec
      by_cases hc : (count + 1) % 7 = 0 ∧ 28 ≤ count + 1
      · rw [if_pos hc]
        have estep : steadyEmits (count + 1) = steadyEmits count + 1 := by
          rw [steadyEmits, if_neg (by omega), if_pos ⟨by omega, hc.1, hc.2⟩]
        have eidx : count + (t :: rest).length = count + 1 + rest.length := by
          simp [List.length_cons]
          omega
        rw [List.length_cons, eidx]
        omega
      · rw [if_neg hc]
        have estep : steadyEmits (count + 1) = steadyEmits count := by
          rw [steadyEmits, if_neg (by omega), if_neg (fun hand => hc ⟨hand.2.1, hand.2.2⟩)]
          omega
        have eidx : count + (t :: rest).length = count + 1 + rest.length := by
          simp [List.length_cons]
          omega
        rw [eidx]
        omega
    · have hd : decide (7 ≤ count) = false := decide_eq_false h7
      rw [hd, if_pos rfl]
      by_cases h71 : 7 ≤ count + 1
      · have hc6 : count = 6 := by omega
        subst hc6
        rw [if_pos h71]
        have hrec := ih (buffer ++ [v]) (6 + 1)
        rw [show decide (7 ≤ 6 + 1) = true from by decide] at hrec
        have e7 : steadyEmits (6 + 1) = steadyEmits 6 + 1 := by decide
        have eidx : 6 + (t :: rest).length = 6 + 1 + rest.length := by
          simp [List.length_cons]
          omega
        rw [List.length_cons, eidx]
        omega
      · rw [if_neg h71]
        have hd2 : decide (7 ≤ count + 1) = false := decide_eq_false h71
        have hrec := ih (buffer ++ [v]) (count + 1)
        rw [hd2] at hrec
        have estep : steadyEmits (count + 1) = steadyEmits count := by
          rw [steadyEmits, if_neg (by omega), if_neg (fun hand => absurd hand.1 (by omega))]
          omega
        have eidx : count + (t :: rest).length = count + 1 + rest.length := by
          simp [List.length_cons]
          omega
        rw [eidx]
        omega

/-- C1 (amended): for a token sequence of N ≥ 28 accepted tokens and a
decode function returning a fixed non-null byte string on every call,
`tokens_decoder` emits exactly `N / 7 - 2` segments: one first chunk
at count 7 and then one segment at every multiple of 7 from 28 on
(counts 14 and 21 produce nothing, because the steady-state threshold
`min_frames_subsequent = 28` has not yet been reached). -/
theorem decoder_segment_count {α β : Type} (turnTok : α → Nat → Option Int)
    (conv : List Int → Nat → Option β) (seg : β) (toks : List α)
    (hacc : ∀ t c, ∃ v, turnTok t c = some v ∧ 0 < v)
    (hconv : ∀ f c, conv f c = some seg)
    (hN : 28 ≤ toks.length) :
    (tokens_decoder turnTok conv toks).length = toks.length / 7 - 2 := by
  have hcv : conv = fun _ _ => some seg := funext fun f => funext fun c => hconv f c
  subst hcv
  have h : (tokens_decoder turnTok (fun _ _ => some seg) toks).length + steadyEmits 0 =
      steadyEmits (0 + toks.length) :=
    tokensDecoderGo_const_count seg turnTok hacc toks [] 0
  rw [Nat.zero_add, steadyEmits_eq toks.length hN] at h
  have h0 : steadyEmits 0 = 0 := rfl
  omega

/-- Witness for C1 (amended): 35 accepted tokens with a constant
decode yield 35 / 7 - 2 = 3 segments. -/
theorem decoder_segment_count_witness :
    (∀ (t : Unit) (c : Nat), ∃ v,
        (fun (_ : Unit) (_ : Nat) => some (1 : Int)) t c = some v ∧ 0 < v) ∧
    (∀ (f : List Int) (c : Nat),
        (fun (_ : List Int) (_ : Nat) => some ([0] : Seg)) f c = some ([0] : Seg)) ∧
    28 ≤ (List.replicate 35 ()).length ∧
    (tokens_decoder (fun (_ : Unit) (_ : Nat) => some (1 : Int))
        (fun (_ : List Int) (_ : Nat) => some ([0] : Seg))
        (List.replicate 35 ())).length = (List.replicate 35 ()).length / 7 - 2 :=
  ⟨fun _ _ => ⟨1, rfl, by decide⟩, fun _ _ => rfl, by decide,
    decoder_segment_count (fun (_ : Unit) (_ : Nat) => some (1 : Int))
      (fun (_ : List Int) (_ : Nat) => some ([0] : Seg)) ([0] : Seg)
      (List.replicate 35 ()) (fun _ _ => ⟨1, rfl, by decide⟩) (fun _ _ => rfl) (by decide)⟩

/-- Counterexample to C1 as stated: 28 accepted tokens with a constant
non-null decode produce 2 segments (at counts 7 and 28), not the
claimed `1 + (28 - 7) / 7 = 4` (nothing is emitted at counts 14 and
21). -/
theorem decoder_segment_count_counterexample :
    (tokens_decoder (fun (_ : Unit) (_ : Nat) => some (1 : Int))
        (fun (_ : List Int) (_ : Nat) => some ([0] : Seg))
        (List.replicate 28 ())).length = 2 ∧
    (2 : Nat) ≠ 1 + (28 - 7) / 7 := by decide

/-- Truncation toward zero never drops below an integer lower bound. -/
theorem le_ratTrunc_of_le (m : ℤ) (q : ℚ) (h : (m : ℚ) ≤ q) : m ≤ ratTrunc q := by
  unfold ratTrunc
  by_cases h0 : 0 ≤ q
  · rw [if_pos h0]
    exact Int.le_floor.mpr h
  · rw [if_neg h0]
    have hc : (m : ℚ) ≤ (⌈q⌉ : ℚ) := le_trans h (Int.le_ceil q)
    exact_mod_cast hc

/-- Truncation toward zero never exceeds an integer upper bound. -/
theorem ratTrunc_le_of_le (m : ℤ) (q : ℚ) (h : q ≤ (m : ℚ)) : ratTrunc q ≤ m := by
  unfold ratTrunc
  by_cases h0 : 0 ≤ q
  · rw [if_pos h0]
    have hf : (⌊q⌋ : ℚ) ≤ (m : ℚ) := le_trans (Int.floor_le q) h
    exact_mod_cast hf
  · rw [if_neg h0]
    exact Int.ceil_le.mpr h

/-- The 16-bit wrap is the identity on in-range values. -/
theorem int16wrap_eq_self (z : ℤ) (h1 : -32768 ≤ z) (h2 : z ≤ 32767) : int16wrap z = z := by
  unfold int16wrap
  rw [Int.emod_eq_of_lt (by omega) (by omega)]
  omega

/-- The fade-in weight lies in `[0, 1]` within the crossfade window. -/
theorem fadeInW_mem_unit (c k : Nat) (hk : k < c) : 0 ≤ fadeInW c k ∧ fadeInW c k ≤ 1 := by
  unfold fadeInW
  by_cases h1 : c = 1
  · simp [h1]
  · rw [if_neg h1]
    have hc2 : 2 ≤ c := by omega
    have hden : (0 : ℚ) < (c : ℚ) - 1 := by
      have : (2 : ℚ) ≤ (c : ℚ) := by exact_mod_cast hc2
      linarith
    constructor
    · exact div_nonneg (by positivity) (le_of_lt hden)
    · rw [div_le_one hden]
      have : (k : ℚ) + 1 ≤ (c : ℚ) := by exact_mod_cast hk
      linarith

/-- Fade-out is the complement of fade-in. -/
theorem fadeOutW_eq (c k : Nat) : fadeOutW c k = 1 - fadeInW c k := by
  unfold fadeOutW fadeInW
  by_cases h : c = 1 <;> simp [h]

/-- A convex combination of two integer amplitudes stays between
them. -/
theorem convex_amp_bounds (A B : ℤ) (t : ℚ) (h0 : 0 ≤ t) (h1 : t ≤ 1) :
    ((min A B : ℤ) : ℚ) ≤ (A : ℚ) * (1 - t) + (B : ℚ) * t ∧
    (A : ℚ) * (1 - t) + (B : ℚ) * t ≤ ((max A B : ℤ) : ℚ) := by
  have hminA : ((min A B : ℤ) : ℚ) ≤ (A : ℚ) := by exact_mod_cast min_le_left A B
  have hminB : ((min A B : ℤ) : ℚ) ≤ (B : ℚ) := by exact_mod_cast min_le_right A B
  have hmaxA : (A : ℚ) ≤ ((max A B : ℤ) : ℚ) := by exact_mod_cast le_max_left A B
  have hmaxB : (B : ℚ) ≤ ((max A B : ℤ) : ℚ) := by exact_mod_cast le_max_right A B
  constructor
  · nlinarith [mul_nonneg (sub_nonneg.mpr hminA) (by linarith : (0 : ℚ) ≤ 1 - t),
      mul_nonneg (sub_nonneg.mpr hminB) h0]
  · nlinarith [mul_nonneg (sub_nonneg.mpr hmaxA) (by linarith : (0 : ℚ) ≤ 1 - t),
      mul_nonneg (sub_nonneg.mpr hmaxB) h0]

/-- Defaulted indexing into a replicated list. -/
theorem getD_replicate (n : Nat) (a : Int) (i : Nat) (h : i < n) :
    (List.replicate n a).getD i 0 = a := by
  rw [List.getD_eq_getElem (List.replicate n a) 0 (by simpa using h)]
  simp

/-- Every sample of the blend of two constant-amplitude regions lies
between the two amplitudes (inclusive). -/
theorem blendRegion_const_bounds (A B : ℤ) (c : Nat)
    (hA1 : -32768 ≤ A) (hA2 : A ≤ 32767) (hB1 : -32768 ≤ B) (hB2 : B ≤ 32767) :
    ∀ s ∈ blendRegion (List.replicate c A) (List.replicate c B) c,
      min A B ≤ s ∧ s ≤ max A B := by
  intro s hs
  simp only [blendRegion, List.mem_map, List.mem_range] at hs
  obtain ⟨k, hk, rfl⟩ := hs
  rw [getD_replicate c A k hk, getD_replicate c B k hk, fadeOutW_eq]
  obtain ⟨ht0, ht1⟩ := fadeInW_mem_unit c k hk
  obtain ⟨hlo, hhi⟩ := convex_amp_bounds A B (fadeInW c k) ht0 ht1
  have htlo : min A B ≤ ratTrunc ((A : ℚ) * (1 - fadeInW c k) + (B : ℚ) * fadeInW c k) :=
    le_ratTrunc_of_le _ _ hlo
  have hthi : ratTrunc ((A : ℚ) * (1 - fadeInW c k) + (B : ℚ) * fadeInW c k) ≤ max A B :=
    ratTrunc_le_of_le _ _ hhi
  have hw : int16wrap (ratTrunc ((A : ℚ) * (1 - fadeInW c k) + (B : ℚ) * fadeInW c k)) =
      ratTrunc ((A : ℚ) * (1 - fadeInW c k) + (B : ℚ) * fadeInW c k) := by
    refine int16wrap_eq_self _ ?_ ?_
    · have : -32768 ≤ min A B := by omega
      omega
    · have : max A B ≤ 32767 := by omega
      omega
  rw [hw]
  exact ⟨htlo, hthi⟩

/-- C7 (amended): merging two constant-amplitude inputs that each hold
at least `crossfadeSamples = SAMPLE_RATE * crossfade_ms / 1000 ≥ 1`
samples produces exactly `la + lb - crossfadeSamples` samples — the
head of the first input, a blended boundary region of
`crossfadeSamples` samples, and the tail of the second — and every
sample of the blended region lies between the two amplitudes
inclusive.  (Strict betweenness fails: `np.linspace` includes both
endpoints, so the first and last blend samples equal the respective
source amplitudes.) -/
theorem stitch_two_crossfade (p q : WavParams) (A B : ℤ) (la lb cfms : Nat)
    (hc1 : 1 ≤ crossfadeSamplesOf cfms)
    (hca : crossfadeSamplesOf cfms ≤ la) (hcb : crossfadeSamplesOf cfms ≤ lb)
    (hA1 : -32768 ≤ A) (hA2 : A ≤ 32767) (hB1 : -32768 ≤ B) (hB2 : B ≤ 32767) :
    stitch_wav_files [⟨p, List.replicate la A⟩, ⟨q, List.replicate lb B⟩] cfms =
      some ⟨p, List.replicate (la - crossfadeSamplesOf cfms) A ++
        blendRegion (List.replicate (crossfadeSamplesOf cfms) A)
          (List.replicate (crossfadeSamplesOf cfms) B) (crossfadeSamplesOf cfms) ++
        List.replicate (lb - crossfadeSamplesOf cfms) B⟩ ∧
    (List.replicate (la - crossfadeSamplesOf cfms) A ++
        blendRegion (List.replicate (crossfadeSamplesOf cfms) A)
          (List.replicate (crossfadeSamplesOf cfms) B) (crossfadeSamplesOf cfms) ++
        List.replicate (lb - crossfadeSamplesOf cfms) B).length =
      la + lb - crossfadeSamplesOf cfms ∧
    ∀ s ∈ blendRegion (List.replicate (crossfadeSamplesOf cfms) A)
        (List.replicate (crossfadeSamplesOf cfms) B) (crossfadeSamplesOf cfms),
      min A B ≤ s ∧ s ≤ max A B := by
  set c := crossfadeSamplesOf cfms with hc
  refine ⟨?_, ?_, blendRegion_const_bounds A B c hA1 hA2 hB1 hB2⟩
  · have hunfold : stitch_wav_files
        [⟨p, List.replicate la A⟩, ⟨q, List.replicate lb B⟩] cfms =
        some ⟨p, stitchStep c (List.replicate la A) (List.replicate lb B)⟩ := rfl
    have hcond : c ≤ (List.replicate la A).length ∧ c ≤ (List.replicate lb B).length := by
      simp [hca, hcb]
    have h1 : pyTakeAllBut (List.replicate la A) c = List.replicate (la - c) A := by
      rw [pyTakeAllBut, if_neg (by omega), List.length_replicate, List.take_replicate,
        min_eq_left (Nat.sub_le la c)]
    have h2 : pyLastSlice (List.replicate la A) c = List.replicate c A := by
      rw [pyLastSlice, if_neg (by omega), List.length_replicate, List.drop_replicate,
        Nat.sub_sub_self hca]
    have h3 : (List.replicate lb B).take c = List.replicate c B := by
      rw [List.take_replicate, min_eq_left hcb]
    have h4 : (List.replicate lb B).drop c = List.replicate (lb - c) B :=
      List.drop_replicate B c lb
    have hsamp : stitchStep c (List.replicate la A) (List.replicate lb B) =
        List.replicate (la - c) A ++
          blendRegion (List.replicate c A) (List.replicate c B) c ++
          List.replicate (lb - c) B := by
      rw [stitchStep, if_pos hcond, h1, h2, h3, h4]
    rw [hunfold, hsamp]
  · have hblen : (blendRegion (List.replicate c A) (List.replicate c B) c).length = c := by
      simp [blendRegion]
    simp only [List.length_append, hblen, List.length_replicate]
    omega

/-- Witness for C7 (amended): two constant inputs of 24 samples at
amplitudes 100 and 200 with a 1 ms crossfade (24 samples at 24 kHz). -/
theorem stitch_two_crossfade_witness :
    (1 ≤ crossfadeSamplesOf 1 ∧ crossfadeSamplesOf 1 ≤ 24 ∧ crossfadeSamplesOf 1 ≤ 24 ∧
      -32768 ≤ (100 : ℤ) ∧ (100 : ℤ) ≤ 32767 ∧ -32768 ≤ (200 : ℤ) ∧ (200 : ℤ) ≤ 32767) ∧
    (stitch_wav_files [⟨⟨1, 2, 24000⟩, List.replicate 24 (100 : ℤ)⟩,
        ⟨⟨1, 2, 24000⟩, List.replicate 24 (200 : ℤ)⟩] 1 =
      some ⟨⟨1, 2, 24000⟩, List.replicate (24 - crossfadeSamplesOf 1) (100 : ℤ) ++
        blendRegion (List.replicate (crossfadeSamplesOf 1) (100 : ℤ))
          (List.replicate (crossfadeSamplesOf 1) (200 : ℤ)) (crossfadeSamplesOf 1) ++
        List.replicate (24 - crossfadeSamplesOf 1) (200 : ℤ)⟩ ∧
      (List.replicate (24 - crossfadeSamplesOf 1) (100 : ℤ) ++
        blendRegion (List.replicate (crossfadeSamplesOf 1) (100 : ℤ))
          (List.replicate (crossfadeSamplesOf 1) (200 : ℤ)) (crossfadeSamplesOf 1) ++
        List.replicate (24 - crossfadeSamplesOf 1) (200 : ℤ)).length =
        24 + 24 - crossfadeSamplesOf 1 ∧
      ∀ s ∈ blendRegion (List.replicate (crossfadeSamplesOf 1) (100 : ℤ))
          (List.replicate (crossfadeSamplesOf 1) (200 : ℤ)) (crossfadeSamplesOf 1),
        min (100 : ℤ) 200 ≤ s ∧ s ≤ max (100 : ℤ) 200) :=
  ⟨by decide,
    stitch_two_crossfade ⟨1, 2, 24000⟩ ⟨1, 2, 24000⟩ 100 200 24 24 1
      (by decide) (by decide) (by decide) (by decide) (by decide) (by decide) (by decide)⟩


/-- Counterexample to C7 as stated: with a 1 ms crossfade (24 samples
at 24 kHz), two constant inputs of exactly 24 samples at amplitudes
100 and 200 satisfy the claim's hypotheses, yet the first sample of
the merged output — which lies in the blended boundary region — equals
100: the fade-out weight of `np.linspace(1.0, 0.0, c)` starts at
exactly 1, so the sample does not fall strictly between the two
amplitudes. -/
theorem crossfade_strict_counterexample :
    crossfadeSamplesOf 1 = 24 ∧
    crossfadeSamplesOf 1 ≤ (List.replicate 24 (100 : ℤ)).length ∧
    crossfadeSamplesOf 1 ≤ (List.replicate 24 (200 : ℤ)).length ∧
    (stitch_wav_files [⟨⟨1, 2, 24000⟩, List.replicate 24 (100 : ℤ)⟩,
        ⟨⟨1, 2, 24000⟩, List.replicate 24 (200 : ℤ)⟩] 1).map
      (fun g => g.samples.getD 0 0) = some 100 ∧
    ¬(100 : ℤ) < 100 := by
  refine ⟨rfl, by decide, by decide, ?_, by decide⟩
  have hunfold : stitch_wav_files [⟨⟨1, 2, 24000⟩, List.replicate 24 (100 : ℤ)⟩,
      ⟨⟨1, 2, 24000⟩, List.replicate 24 (200 : ℤ)⟩] 1 =
      some ⟨⟨1, 2, 24000⟩,
        stitchStep 24 (List.replicate 24 100) (List.replicate 24 200)⟩ := rfl
  have hstep : stitchStep 24 (List.replicate 24 (100 : ℤ)) (List.replicate 24 (200 : ℤ)) =
      blendRegion (List.replicate 24 100) (List.replicate 24 200) 24 := by
    rw [stitchStep, if_pos (by simp)]
    simp [pyTakeAllBut, pyLastSlice, List.take_replicate, List.drop_replicate]
  have hfo : fadeOutW 24 0 = 1 := by
    rw [fadeOutW, if_neg (by omega)]
    norm_num
  have hfi : fadeInW 24 0 = 0 := by
    rw [fadeInW, if_neg (by omega)]
    norm_num
  have hval : (((List.replicate 24 (100 : ℤ)).getD 0 0 : ℤ) : ℚ) * fadeOutW 24 0 +
      (((List.replicate 24 (200 : ℤ)).getD 0 0 : ℤ) : ℚ) * fadeInW 24 0 =
      (((100 : ℤ) : ℚ)) := by
    rw [getD_replicate 24 100 0 (by omega), getD_replicate 24 200 0 (by omega), hfo, hfi]
    ring
  have htr : ratTrunc (((100 : ℤ) : ℚ)) = 100 := by
    rw [ratTrunc, if_pos (by positivity)]
    exact_mod_cast Int.floor_intCast (α := ℚ) 100
  have hblend0 : (blendRegion (List.replicate 24 (100 : ℤ))
      (List.replicate 24 (200 : ℤ)) 24).getD 0 0 = 100 := by
    rw [blendRegion, List.getD_eq_getElem _ 0 (by simp)]
    rw [List.getElem_map, List.getElem_range]
    rw [hval, htr]
    exact int16wrap_eq_self 100 (by decide) (by decide)
  rw [hunfold]
  show some ((stitchStep 24 (List.replicate 24 (100 : ℤ))
    (List.replicate 24 (200 : ℤ))).getD 0 0) = some 100
  rw [hstep, hblend0]
